import Mathlib

/-!
Verification of the sHUttl trip-planning engine.

This file gives a shallow embedding of the algorithmic core of the
repository (main.py and harvard_mapping.py) and proves or refutes the
specified properties.  Machine floats are modelled as rationals; the
transcendental haversine distance is passed in as an explicit function
parameter wherever the source computes it, so that every embedded
definition stays executable.
-/

namespace Shuttl

/-! ## Constants (main.py lines 151-152, 813; harvard_mapping.py line 22) -/

def FALLBACK_SPEED_MS : ℚ := 5

def MIN_SPEED_MS_FOR_ETA : ℚ := 1

def NEAR_STOP_METERS : ℚ := 30

def MAX_MATCH_DISTANCE_M : ℚ := 100

/-! ## String helpers

Python str.lower and str.strip, modelled as structural functions on the
character list of the string (the core library versions are defined by
well-founded recursion on byte positions and do not evaluate in the
kernel; these agree with them on ASCII input). -/

def strLower (s : String) : String :=
  String.mk (s.toList.map Char.toLower)

def strTrim (s : String) : String :=
  String.mk (((s.toList.dropWhile Char.isWhitespace).reverse.dropWhile
    Char.isWhitespace).reverse)

/-! ## norm_id (main.py lines 155-163)

Strips, lower-cases, and keeps only the characters `[a-z0-9_-]`,
returning none for an empty result. -/

def normIdChar (c : Char) : Bool :=
  (decide ('a' ≤ c) && decide (c ≤ 'z')) || (decide ('0' ≤ c) && decide (c ≤ '9')) ||
    c == '_' || c == '-'

def norm_id (x : Option String) : Option String :=
  match x with
  | none => none
  | some s =>
    let t := strTrim s
    if t = "" then none
    else
      let u := String.mk ((strLower t).toList.filter normIdChar)
      if u = "" then none else some u

/-! ## LiveEtaEstimator: smoothed speed (main.py lines 916-940)

A position sample is a latitude, longitude and a timestamp in seconds.
The source walks consecutive samples of the per-vehicle history,
accumulating distance and elapsed time over the pairs that pass the
sanity check `dt > 0.1 and 1 <= d/dt <= 20`. -/

structure Sample where
  lat : ℚ
  lng : ℚ
  t : ℚ
deriving DecidableEq, Repr

def consecutivePairs (states : List Sample) : List (Sample × Sample) :=
  states.zip states.tail

def pairDt (p : Sample × Sample) : ℚ := p.2.t - p.1.t

def pairDist (dist : ℚ → ℚ → ℚ → ℚ → ℚ) (p : Sample × Sample) : ℚ :=
  dist p.1.lat p.1.lng p.2.lat p.2.lng

def pairQualifies (dist : ℚ → ℚ → ℚ → ℚ → ℚ) (p : Sample × Sample) : Bool :=
  decide ((1 : ℚ)/10 < pairDt p) &&
    decide ((1 : ℚ) ≤ pairDist dist p / pairDt p) &&
    decide (pairDist dist p / pairDt p ≤ 20)

def smoothTotals (dist : ℚ → ℚ → ℚ → ℚ → ℚ) (states : List Sample) : ℚ × ℚ :=
  (consecutivePairs states).foldl
    (fun acc p =>
      if pairQualifies dist p then (acc.1 + pairDist dist p, acc.2 + pairDt p) else acc)
    (0, 0)

def smoothed_speed (dist : ℚ → ℚ → ℚ → ℚ → ℚ) (states : List Sample) : Option ℚ :=
  if 2 ≤ states.length then
    let tot := smoothTotals dist states
    if 0 < tot.2 then some (tot.1 / tot.2) else none
  else none

/-- Fallback resolution (main.py lines 937-940).  A rational is always
finite, so the isfinite clause of the source cannot fire in the model. -/
def resolve_speed (speed : Option ℚ) : ℚ × String :=
  match speed with
  | none => (FALLBACK_SPEED_MS, "fallback")
  | some v => if v < MIN_SPEED_MS_FOR_ETA then (FALLBACK_SPEED_MS, "fallback") else (v, "cache")

/-! ## LiveEtaEstimator: per-vehicle distance and best-vehicle selection
(main.py lines 860-893)

For each candidate vehicle the source computes the straight-line
distance to the boarding stop; within `NEAR_STOP_METERS` the along-chain
distance is overridden to 0, otherwise the chain projection (an optional
value) is used, with the straight-line distance as fallback when the
projection returns None.  The best vehicle is the one of smallest
resulting distance, starting from infinity. -/

def vehicleCurrDist (straight : ℚ) (chainProj : Option ℚ) : ℚ :=
  if straight ≤ NEAR_STOP_METERS then 0
  else chainProj.getD straight

def bestDistStep (best : Option ℚ) (v : ℚ × Option ℚ) : Option ℚ :=
  match best with
  | none => some (vehicleCurrDist v.1 v.2)
  | some b =>
    if vehicleCurrDist v.1 v.2 < b then some (vehicleCurrDist v.1 v.2) else some b

def bestDistFold (vs : List (ℚ × Option ℚ)) : Option ℚ :=
  vs.foldl bestDistStep none

/-! ## Route geometry memo (main.py lines 316-360)

Only the cache evolution is modelled: the returned geometry data is
trigonometric and irrelevant to the cache-size claim.  A stop record
carries the optional fields probed by the source; Python `or` treats
0.0 and the empty string as falsy, which `pyOrQ` / `pyOrS` reproduce. -/

structure GeoStop where
  id : Option String
  stop_id : Option String
  lat : Option ℚ
  latitude : Option ℚ
  lng : Option ℚ
  longitude : Option ℚ
deriving DecidableEq, Repr

def pyOrQ (a b : Option ℚ) : Option ℚ :=
  match a with
  | some x => if x = 0 then b else some x
  | none => b

def pyOrS (a b : Option String) : Option String :=
  match a with
  | some x => if x = "" then b else some x
  | none => b

/-- Python str() applied to an optional string: None prints as "None". -/
def strOfOpt (a : Option String) : String :=
  match a with
  | some s => s
  | none => "None"

def geoKey (stops : List GeoStop) : List String :=
  stops.map (fun s => strOfOpt (pyOrS s.id s.stop_id))

def geoPts (stops : List GeoStop) : List (ℚ × ℚ) :=
  stops.filterMap (fun s =>
    match pyOrQ s.lat s.latitude, pyOrQ s.lng s.longitude with
    | some a, some b => some (a, b)
    | _, _ => none)

/-- A stop record with valid coordinates, used to drive the memo with
fresh keys (lists of the same id at varying lengths are distinct keys). -/
def probeStop : GeoStop := ⟨some "s", none, some 1, none, some 1, none⟩

def get_route_geometry_cache (cache : List (List String)) (stops : List GeoStop) :
    List (List String) :=
  if stops = [] then cache
  else
    let key := geoKey stops
    if key ∈ cache then cache
    else if (geoPts stops).length < 2 then cache
    else if 1000 < cache.length then [key]
    else cache ++ [key]

/-! ## PathFinder (main.py lines 1252-1299 and 1308-1358)

The BFS state mirrors the queue tuples of the source.  The two source
functions differ only in how an adjacency record is read
(`edge["to"]` versus `edge.next_stop_id`), so both are expressed
through one loop over an adjacency function returning
(target stop, route id) pairs.  The unbounded Python while-loop is
driven by an explicit fuel parameter; every theorem below holds for
every fuel value. -/

/-- An adjacency record of the live-tracking graph; the source dict key
for the first field is the reserved word to, rendered here as to_stop. -/
structure Edge where
  to_stop : String
  route_id : String
deriving DecidableEq, Repr

structure HarvardEdge where
  next_stop_id : String
  route_id : String
deriving DecidableEq, Repr

structure BfsState where
  curr : String
  nodes : List String
  edges : List (String × String × String)
  lastRid : Option String
  transfers : ℕ
deriving DecidableEq, Repr

abbrev BfsPath := List String × List (String × String × String)

def pathSig (nodes : List String) (edges : List (String × String × String)) : String :=
  String.intercalate "-" (edges.map (fun e => e.2.2)) ++ ":" ++ String.intercalate "-" nodes

def stepEdge (dest : String) (maxTransfers : ℕ) (st : BfsState)
    (acc : List BfsPath × List String × List BfsState) (e : String × String) :
    List BfsPath × List String × List BfsState :=
  let nxt := e.1
  let rid := e.2
  if nxt ∈ st.nodes then acc
  else
    let newT := st.transfers + (if st.lastRid.isSome && st.lastRid ≠ some rid then 1 else 0)
    if maxTransfers < newT then acc
    else
      let newNodes := st.nodes ++ [nxt]
      let newEdges := st.edges ++ [(st.curr, nxt, rid)]
      if nxt = dest then
        let sig := pathSig newNodes newEdges
        if sig ∈ acc.2.1 then acc
        else (acc.1 ++ [(newNodes, newEdges)], acc.2.1 ++ [sig], acc.2.2)
      else
        (acc.1, acc.2.1, acc.2.2 ++ [⟨nxt, newNodes, newEdges, some rid, newT⟩])

def bfsLoop (adj : String → List (String × String)) (dest : String)
    (k maxDepth maxTransfers : ℕ) :
    ℕ → List BfsState → List BfsPath → List String → List BfsPath
  | 0, _, results, _ => results
  | fuel + 1, queue, results, seen =>
    if results.length < k then
      match queue with
      | [] => results
      | st :: rest =>
        if maxDepth + 1 < st.nodes.length then
          bfsLoop adj dest k maxDepth maxTransfers fuel rest results seen
        else
          let out := (adj st.curr).foldl (stepEdge dest maxTransfers st) (results, seen, [])
          bfsLoop adj dest k maxDepth maxTransfers fuel (rest ++ out.2.2) out.1 out.2.1
    else results

def find_k_paths (graph : String → List Edge) (origin dest : String)
    (k maxDepth maxTransfers fuel : ℕ) : List BfsPath :=
  if origin = dest then [([origin], [])]
  else
    bfsLoop (fun s => (graph s).map (fun e => (e.to_stop, e.route_id))) dest k maxDepth maxTransfers
      fuel [⟨origin, [origin], [], none, 0⟩] [] []

def find_k_paths_harvard (graph : String → List HarvardEdge) (origin dest : String)
    (k maxDepth maxTransfers fuel : ℕ) : List BfsPath :=
  if origin = dest then [([origin], [])]
  else
    bfsLoop (fun s => (graph s).map (fun e => (e.next_stop_id, e.route_id))) dest k maxDepth
      maxTransfers fuel [⟨origin, [origin], [], none, 0⟩] [] []

/-- Number of route-id changes along an edge list (the quantity the
transfer counter of the source tracks). -/
def routeChanges : List (String × String × String) → ℕ
  | [] => 0
  | [_] => 0
  | e1 :: e2 :: rest =>
    (if e1.2.2 ≠ e2.2.2 then 1 else 0) + routeChanges (e2 :: rest)

/-- The last route id tracked by a BFS state agrees with the route of
the last edge taken (none when no edge has been taken yet). -/
def lastRidOk (st : BfsState) : Prop :=
  match st.edges.getLast? with
  | none => st.lastRid = none
  | some e => st.lastRid = some e.2.2

/-- Invariant of every queued BFS state. -/
def stInv (maxTransfers : ℕ) (st : BfsState) : Prop :=
  st.nodes.Nodup ∧ st.transfers = routeChanges st.edges ∧
    st.transfers ≤ maxTransfers ∧ lastRidOk st

/-- The property claimed for accepted paths. -/
def pathOk (maxTransfers : ℕ) (p : BfsPath) : Prop :=
  p.1.Nodup ∧ routeChanges p.2 ≤ maxTransfers

/-! ## SegmentCompressor: route compression (main.py lines 1494-1525)

The canonical-id map is an optional lookup; `canonOf` reproduces
`rid_to_canonical.get(norm_id(rid), rid)`.  The source initialises
`current_route` with the route of edge 0, so the loop iteration for
edge 0 can never close a segment; the recursion therefore starts at
edge index 1 with edge 0 consumed into the initial state. -/

def canonOf (m : Option (String → Option String)) (rid : String) : String :=
  match m with
  | none => rid
  | some f =>
    match norm_id (some rid) with
    | none => rid
    | some nid => (f nid).getD rid

structure RouteSeg where
  route_id : String
  start_stop_index : ℕ
  end_stop_index : ℕ
deriving DecidableEq, Repr

def compressAux (canon : String → String) (n : ℕ) :
    String → ℕ → ℕ → List (String × String × String) → List RouteSeg
  | cur, startIdx, _, [] => [⟨cur, startIdx, n - 1⟩]
  | cur, startIdx, idx, e :: rest =>
    if canon e.2.2 ≠ canon cur then
      ⟨cur, startIdx, idx⟩ :: compressAux canon n e.2.2 idx (idx + 1) rest
    else
      compressAux canon n cur startIdx (idx + 1) rest

def compress_path_by_route (path_stop_ids : List String)
    (edges : List (String × String × String))
    (m : Option (String → Option String)) : List RouteSeg :=
  match edges with
  | [] => []
  | e0 :: rest => compressAux (canonOf m) path_stop_ids.length e0.2.2 0 1 rest

/-- The coverage property claimed for the compressor: the segments,
in order, tile the stop indices 0 .. n-1 with shared boundaries and
no degenerate segment. -/
def segsPartition (segs : List RouteSeg) (n : ℕ) : Prop :=
  segs.head?.map (fun s => s.start_stop_index) = some 0 ∧
  segs.getLast?.map (fun s => s.end_stop_index) = some (n - 1) ∧
  List.Chain' (fun a b => a.end_stop_index = b.start_stop_index) segs ∧
  ∀ s ∈ segs, s.start_stop_index < s.end_stop_index

instance : DecidablePred (fun p : List RouteSeg × ℕ => segsPartition p.1 p.2) := by
  intro p
  unfold segsPartition
  infer_instance

/-! ## SegmentCompressor: display merge (main.py lines 1447-1462 and 1474-1491) -/

structure StopRef where
  id : String
deriving DecidableEq, Repr

structure DisplaySeg where
  route_name : Option String
  short_name : Option String
  start_stop : StopRef
  end_stop : StopRef
  stops : List StopRef
  next_bus : Option String
deriving DecidableEq, Repr

def same_display_line (a b : DisplaySeg) : Bool :=
  match a.route_name, b.route_name with
  | some ra, some rb =>
    ra == rb && a.short_name == b.short_name && a.end_stop.id == b.start_stop.id
  | _, _ => false

/-- Extension of the running segment by a mergeable successor
(main.py lines 1485-1486). -/
def extendSeg (last seg : DisplaySeg) : DisplaySeg :=
  { last with end_stop := seg.end_stop, stops := last.stops ++ seg.stops.drop 1 }

def mergeLoop : DisplaySeg → List DisplaySeg → List DisplaySeg
  | last, [] => [last]
  | last, seg :: rest =>
    if same_display_line last seg then
      mergeLoop (extendSeg last seg) rest
    else
      last :: mergeLoop seg rest

def merge_segments_for_display : List DisplaySeg → List DisplaySeg
  | [] => []
  | s :: rest => mergeLoop s rest

/-! ## ShapeSlicer (main.py lines 224-292)

The distance function is a parameter standing for distance_m.  The
index searches keep the first index attaining the minimum, exactly as
the strict-less updates of the source do. -/

def findMinIdx (f : ℚ × ℚ → ℚ) (l : List (ℚ × ℚ)) (dflt : ℕ) : ℕ :=
  (l.enum.foldl
    (fun acc p =>
      match acc.2 with
      | none => (p.1, some (f p.2))
      | some m => if f p.2 < m then (p.1, some (f p.2)) else acc)
    (dflt, none)).1

def slice_shape_to_segment (dist : ℚ × ℚ → ℚ × ℚ → ℚ) (shape_coords : List (ℚ × ℚ))
    (start_stop_lat start_stop_lng end_stop_lat end_stop_lng : ℚ) : List (ℚ × ℚ) :=
  if shape_coords.length < 2 then shape_coords
  else
    let start_idx := findMinIdx (fun p => dist p (start_stop_lat, start_stop_lng)) shape_coords 0
    let end_idx := findMinIdx (fun p => dist p (end_stop_lat, end_stop_lng)) shape_coords
      (shape_coords.length - 1)
    let is_loop : Bool := decide (2 < shape_coords.length) &&
      (match shape_coords.head?, shape_coords.getLast? with
      | some a, some b => decide (dist a b < 150)
      | _, _ => false)
    let sliced :=
      if start_idx ≤ end_idx then
        (shape_coords.drop start_idx).take (end_idx - start_idx + 1)
      else if is_loop then
        shape_coords.drop start_idx ++ shape_coords.take (end_idx + 1)
      else
        (((shape_coords.drop end_idx).take (start_idx - end_idx + 1)).reverse)
    if sliced.length < 2 then
      [(start_stop_lat, start_stop_lng), (end_stop_lat, end_stop_lng)]
    else sliced

/-! ## StopIdentityReconciler (harvard_mapping.py lines 50-105)

Candidates are the (stop_id, stop) pairs of stops_by_id in iteration
order; the haversine distance is a parameter.  The running best is
modelled as an optional (id, distance, name_match) triple; the source
initial state (None, inf, False) corresponds to none, and every
transition of the source sets all three fields together. -/

structure GtfsStop where
  stop_name : String
  lat : ℚ
  lon : ℚ
deriving DecidableEq, Repr

structure PStop where
  latitude : Option ℚ
  longitude : Option ℚ
  name : Option String
deriving DecidableEq, Repr

def nameMatch (pLower gLower : String) : Bool :=
  decide (pLower.toList <:+: gLower.toList) || decide (gLower.toList <:+: pLower.toList)

def candDist (hdist : ℚ → ℚ → ℚ → ℚ → ℚ) (pLat pLon : ℚ) (c : String × GtfsStop) : ℚ :=
  hdist pLat pLon c.2.lat c.2.lon

def candNM (pLower : String) (c : String × GtfsStop) : Bool :=
  nameMatch pLower (strTrim (strLower c.2.stop_name))

def mapStep (hdist : ℚ → ℚ → ℚ → ℚ → ℚ) (pLat pLon : ℚ) (pLower : String)
    (st : Option (String × ℚ × Bool)) (c : String × GtfsStop) :
    Option (String × ℚ × Bool) :=
  let d := candDist hdist pLat pLon c
  if MAX_MATCH_DISTANCE_M < d then st
  else
    let nm := candNM pLower c
    match st with
    | none => some (c.1, d, nm)
    | some (bid, bd, bnm) =>
      if nm && !bnm then some (c.1, d, true)
      else if nm == bnm && d < bd then some (c.1, d, nm)
      else some (bid, bd, bnm)

def map_passiogo_stop_to_gtfs_id (hdist : ℚ → ℚ → ℚ → ℚ → ℚ)
    (stops_by_id : List (String × GtfsStop)) (p : PStop) : Option String :=
  match p.latitude, p.longitude with
  | some pLat, some pLon =>
    let pLower := strTrim (strLower (p.name.getD ""))
    (stops_by_id.foldl (mapStep hdist pLat pLon pLower) none).map (fun b => b.1)
  | _, _ => none

/-- A candidate clears the fixed match radius (the source discards
candidates with distance > MAX_MATCH_DISTANCE_M). -/
def inRadius (hdist : ℚ → ℚ → ℚ → ℚ → ℚ) (pLat pLon : ℚ) (c : String × GtfsStop) : Prop :=
  candDist hdist pLat pLon c ≤ MAX_MATCH_DISTANCE_M

/-- Invariant of the running best of the reconciler fold after the
listed candidates have been processed: the best triple comes from an
in-radius candidate, its name-match flag records whether any in-radius
name-matcher has been seen, and its distance is minimal within its
name-match class. -/
def mapInv (hdist : ℚ → ℚ → ℚ → ℚ → ℚ) (pLat pLon : ℚ) (pLower : String)
    (l : List (String × GtfsStop)) : Option (String × ℚ × Bool) → Prop
  | none => ∀ c ∈ l, ¬ inRadius hdist pLat pLon c
  | some b =>
      (∃ c ∈ l, c.1 = b.1 ∧ candDist hdist pLat pLon c = b.2.1 ∧
        candNM pLower c = b.2.2 ∧ inRadius hdist pLat pLon c) ∧
      (b.2.2 = true ↔ ∃ c ∈ l, inRadius hdist pLat pLon c ∧ candNM pLower c = true) ∧
      (∀ c ∈ l, inRadius hdist pLat pLon c → candNM pLower c = b.2.2 →
        b.2.1 ≤ candDist hdist pLat pLon c)

/-! ## Theorems -/

theorem foldl_filter_sums {α : Type} (q : α → Bool) (fd ft : α → ℚ) :
    ∀ (l : List α) (acc : ℚ × ℚ),
      l.foldl (fun acc p => if q p then (acc.1 + fd p, acc.2 + ft p) else acc) acc =
        (acc.1 + ((l.filter q).map fd).sum, acc.2 + ((l.filter q).map ft).sum) := by
  intro l
  induction l with
  | nil => intro acc; simp
  | cons p l ih =>
    intro acc
    by_cases h : q p
    · simp [h, ih, add_assoc]
    · simp [h, ih]

/-- Claim C4: a consecutive sample pair contributes to the smoothed average
exactly when its elapsed time exceeds 0.1 s and its implied speed lies
in the band 1 to 20 m/s, and the smoothed speed is the summed
qualifying distance over the summed qualifying time; two samples 10 s
apart at great-circle distance 50 m give exactly 5 m/s (used as-is),
while a pair implying 30 m/s is rejected so the fallback speed is
used. -/
theorem smoothed_speed_qualifying_pairs :
    (∀ (dist : ℚ → ℚ → ℚ → ℚ → ℚ) (states : List Sample),
      smoothTotals dist states =
        ((((consecutivePairs states).filter (pairQualifies dist)).map (pairDist dist)).sum,
         (((consecutivePairs states).filter (pairQualifies dist)).map pairDt).sum)) ∧
    (smoothed_speed (fun _ _ _ _ => 50) [⟨0, 0, 0⟩, ⟨0, 0, 10⟩] = some 5 ∧
      resolve_speed (smoothed_speed (fun _ _ _ _ => 50) [⟨0, 0, 0⟩, ⟨0, 0, 10⟩]) =
        (5, "cache")) ∧
    (smoothed_speed (fun _ _ _ _ => 300) [⟨0, 0, 0⟩, ⟨0, 0, 10⟩] = none ∧
      resolve_speed (smoothed_speed (fun _ _ _ _ => 300) [⟨0, 0, 0⟩, ⟨0, 0, 10⟩]) =
        (FALLBACK_SPEED_MS, "fallback")) := by
  refine ⟨?_, ⟨?_, ?_⟩, ⟨?_, ?_⟩⟩
  · intro dist states
    simpa using foldl_filter_sums (pairQualifies dist) (pairDist dist) pairDt
      (consecutivePairs states) (0, 0)
  · norm_num [smoothed_speed, smoothTotals, consecutivePairs, pairQualifies, pairDist, pairDt]
  · norm_num [resolve_speed, smoothed_speed, smoothTotals, consecutivePairs, pairQualifies,
      pairDist, pairDt, MIN_SPEED_MS_FOR_ETA]
  · norm_num [smoothed_speed, smoothTotals, consecutivePairs, pairQualifies, pairDist, pairDt]
  · norm_num [resolve_speed, smoothed_speed, smoothTotals, consecutivePairs, pairQualifies,
      pairDist, pairDt, MIN_SPEED_MS_FOR_ETA, FALLBACK_SPEED_MS]

theorem vehicleCurrDist_nonneg (straight : ℚ) (chainProj : Option ℚ)
    (h1 : 0 ≤ straight) (h2 : 0 ≤ chainProj.getD 0) :
    0 ≤ vehicleCurrDist straight chainProj := by
  unfold vehicleCurrDist
  split
  · exact le_refl 0
  · cases chainProj with
    | none => simpa using h1
    | some c => simpa using h2

theorem bestDistFold_go :
    ∀ (vs : List (ℚ × Option ℚ)) (b : ℚ),
      ∃ m, vs.foldl bestDistStep (some b) = some m ∧ m ≤ b ∧
        (∀ v ∈ vs, m ≤ vehicleCurrDist v.1 v.2) ∧
        (m = b ∨ ∃ v ∈ vs, vehicleCurrDist v.1 v.2 = m) := by
  intro vs
  induction vs with
  | nil => intro b; exact ⟨b, by simp⟩
  | cons v rest ih =>
    intro b
    by_cases h : vehicleCurrDist v.1 v.2 < b
    · obtain ⟨m, hm, hle, hall, hmem⟩ := ih (vehicleCurrDist v.1 v.2)
      refine ⟨m, ?_, le_of_lt (lt_of_le_of_lt hle h), ?_, ?_⟩
      · simp [List.foldl_cons, bestDistStep, h, hm]
      · intro w hw
        rcases List.mem_cons.mp hw with rfl | hw2
        · exact hle
        · exact hall w hw2
      · rcases hmem with rfl | ⟨w, hw, hwm⟩
        · exact Or.inr ⟨v, List.mem_cons_self v rest, rfl⟩
        · exact Or.inr ⟨w, List.mem_cons_of_mem v hw, hwm⟩
    · obtain ⟨m, hm, hle, hall, hmem⟩ := ih b
      refine ⟨m, ?_, hle, ?_, ?_⟩
      · simp [List.foldl_cons, bestDistStep, h, hm]
      · intro w hw
        rcases List.mem_cons.mp hw with rfl | hw2
        · exact le_trans hle (not_lt.mp h)
        · exact hall w hw2
      · rcases hmem with rfl | ⟨w, hw, hwm⟩
        · exact Or.inl rfl
        · exact Or.inr ⟨w, List.mem_cons_of_mem v hw, hwm⟩

/-- Claim C5: a vehicle whose straight-line distance to the boarding stop is
at most NEAR_STOP_METERS gets per-vehicle distance 0 whatever the chain
projection returns, and consequently the best (reported) distance over
a candidate list containing such a vehicle is 0. -/
theorem near_stop_override :
    (∀ (straight : ℚ) (chainProj : Option ℚ), straight ≤ NEAR_STOP_METERS →
      vehicleCurrDist straight chainProj = 0) ∧
    (∀ vs : List (ℚ × Option ℚ),
      (∀ v ∈ vs, 0 ≤ v.1 ∧ 0 ≤ v.2.getD 0) →
      (∃ v ∈ vs, v.1 ≤ NEAR_STOP_METERS) →
      bestDistFold vs = some 0) := by
  constructor
  · intro straight chainProj h
    simp [vehicleCurrDist, h]
  · intro vs hnn ⟨v0, hv0, hv0near⟩
    cases vs with
    | nil => cases hv0
    | cons v rest =>
      have hstep : bestDistFold (v :: rest) =
          rest.foldl bestDistStep (some (vehicleCurrDist v.1 v.2)) := by
        simp [bestDistFold, List.foldl_cons, bestDistStep]
      obtain ⟨m, hm, hle, hall, hmem⟩ := bestDistFold_go rest (vehicleCurrDist v.1 v.2)
      have hmnn : 0 ≤ m := by
        rcases hmem with rfl | ⟨w, hw, hwm⟩
        · exact vehicleCurrDist_nonneg _ _ (hnn v (List.mem_cons_self v rest)).1
            (hnn v (List.mem_cons_self v rest)).2
        · rw [← hwm]
          exact vehicleCurrDist_nonneg _ _ (hnn w (List.mem_cons_of_mem v hw)).1
            (hnn w (List.mem_cons_of_mem v hw)).2
      have hmle : m ≤ 0 := by
        have hzero : vehicleCurrDist v0.1 v0.2 = 0 := by
          simp [vehicleCurrDist, hv0near]
        rcases List.mem_cons.mp hv0 with rfl | hv0rest
        · exact hzero ▸ hle
        · exact hzero ▸ hall v0 hv0rest
      rw [hstep, hm]
      exact congrArg some (le_antisymm hmle hmnn)

/-- Concrete instantiation of near_stop_override. -/
theorem near_stop_override_witness :
    vehicleCurrDist 10 (some 500) = 0 ∧
      bestDistFold [(100, some 70), (10, some 500)] = some 0 :=
  ⟨near_stop_override.1 10 (some 500) (by norm_num [NEAR_STOP_METERS]),
   near_stop_override.2 [(100, some 70), (10, some 500)] (by decide)
     ⟨(10, some 500), by decide, by norm_num [NEAR_STOP_METERS]⟩⟩

/-- Claim C7 fails as stated: an input polyline with fewer than two points is
returned unchanged, so the empty polyline yields an empty result rather
than the two-point fallback. -/
theorem slice_shape_short_input_counterexample :
    ¬ 2 ≤ (slice_shape_to_segment (fun _ _ => 0) [] 0 0 1 1).length := by
  simp [slice_shape_to_segment]

theorem atLeastTwo_aux (sl fb : List (ℚ × ℚ)) (hfb : fb.length = 2) :
    2 ≤ (if sl.length < 2 then fb else sl).length := by
  split
  · omega
  · omega

/-- Claim C7 amended: for every input polyline with at least two points the
slicer returns a polyline of at least two points, falling back to the
two stop coordinates when slicing degenerates. -/
theorem slice_shape_min_two_points (dist : ℚ × ℚ → ℚ × ℚ → ℚ) (shape : List (ℚ × ℚ))
    (sLat sLng eLat eLng : ℚ) (h : 2 ≤ shape.length) :
    2 ≤ (slice_shape_to_segment dist shape sLat sLng eLat eLng).length := by
  rw [slice_shape_to_segment, if_neg (by omega)]
  exact atLeastTwo_aux _ _ rfl

/-- Concrete instantiation of slice_shape_min_two_points. -/
theorem slice_shape_min_two_points_witness :
    2 ≤ (slice_shape_to_segment (fun _ _ => 0) [(0, 0), (1, 1)] 0 0 1 1).length :=
  slice_shape_min_two_points (fun _ _ => 0) [(0, 0), (1, 1)] 0 0 1 1 (by simp)

/-- Claim C2 (code bug): with k = 1 the search returns two paths on a graph
whose origin has two parallel edges to the destination on different
routes; the result-count guard is only re-checked between dequeues,
never between edges of one node. -/
theorem find_k_paths_overrun :
    (find_k_paths (fun s => if s = "A" then [⟨"B", "r1"⟩, ⟨"B", "r2"⟩] else [])
      "A" "B" 1 20 1 5).length = 2 := by
  rfl

theorem geoKey_replicate (n : ℕ) :
    geoKey (List.replicate n probeStop) = List.replicate n "s" := by
  simp [geoKey, probeStop, pyOrS, strOfOpt]

theorem geoPts_replicate (n : ℕ) :
    (geoPts (List.replicate n probeStop)).length = n := by
  induction n with
  | zero => simp [geoPts]
  | succ n ih =>
    have hcons : geoPts (probeStop :: List.replicate n probeStop) =
        (1, 1) :: geoPts (List.replicate n probeStop) := by
      simp [geoPts, List.filterMap_cons, probeStop, pyOrQ]
    rw [List.replicate_succ, hcons, List.length_cons, ih]

theorem geo_run : ∀ m : ℕ, m ≤ 1001 →
    (List.range m).foldl
        (fun c i => get_route_geometry_cache c (List.replicate (i + 2) probeStop)) []
      = (List.range m).map (fun i => List.replicate (i + 2) "s") := by
  intro m
  induction m with
  | zero => intro _; simp
  | succ m ih =>
    intro hm
    rw [List.range_succ, List.foldl_append, ih (by omega)]
    simp only [List.foldl_cons, List.foldl_nil]
    rw [List.map_append]
    have hne : List.replicate (m + 2) probeStop ≠ [] := by simp
    have hmem : List.replicate (m + 2) "s" ∉
        (List.range m).map (fun i => List.replicate (i + 2) "s") := by
      simp only [List.mem_map, List.mem_range]
      rintro ⟨i, hi, heq⟩
      have hl := congrArg List.length heq
      simp at hl
      omega
    have hlen : ((List.range m).map (fun i => List.replicate (i + 2) "s")).length = m := by
      simp
    have hpts : ¬ (geoPts (List.replicate (m + 2) probeStop)).length < 2 := by
      rw [geoPts_replicate]; omega
    have hcap : ¬ 1000 < m := by omega
    simp [get_route_geometry_cache, hne, geoKey_replicate, hmem, hpts, hcap]

/-- Claim C9 fails as stated: starting from the empty memo, 1001 calls with
distinct fresh keys leave 1001 entries, because the clear fires only
when the size already exceeds 1000 before the insert. -/
theorem geometry_cache_overflow_counterexample :
    1000 < ((List.range 1001).foldl
      (fun c i => get_route_geometry_cache c (List.replicate (i + 2) probeStop)) []).length := by
  rw [geo_run 1001 (le_refl 1001)]
  simp

/-- Claim C9 amended: the memo size after a call never exceeds 1001 (given it
did not before), and a fresh insert finding more than 1000 entries
clears the memo down to the single new entry. -/
theorem geometry_cache_bound (cache : List (List String)) (stops : List GeoStop)
    (h : cache.length ≤ 1001) :
    (get_route_geometry_cache cache stops).length ≤ 1001 ∧
    (1000 < cache.length → geoKey stops ∉ cache → stops ≠ [] →
      2 ≤ (geoPts stops).length →
      get_route_geometry_cache cache stops = [geoKey stops]) := by
  constructor
  · by_cases h0 : stops = []
    · simp [get_route_geometry_cache, h0, h]
    · by_cases h1 : geoKey stops ∈ cache
      · simp [get_route_geometry_cache, h0, h1, h]
      · by_cases h2 : (geoPts stops).length < 2
        · simp [get_route_geometry_cache, h0, h1, h2, h]
        · by_cases h3 : 1000 < cache.length
          · simp [get_route_geometry_cache, h0, h1, h2, h3]
          · simp [get_route_geometry_cache, h0, h1, h2, h3]
            omega
  · intro h1 h2 h3 h4
    have h5 : ¬ (geoPts stops).length < 2 := by omega
    simp [get_route_geometry_cache, h3, h2, h5, h1]

/-- Concrete instantiation of geometry_cache_bound. -/
theorem geometry_cache_bound_witness :
    (get_route_geometry_cache [] []).length ≤ 1001 ∧
    (1000 < ([] : List (List String)).length → geoKey [] ∉ ([] : List (List String)) →
      ([] : List GeoStop) ≠ [] → 2 ≤ (geoPts []).length →
      get_route_geometry_cache [] [] = [geoKey []]) :=
  geometry_cache_bound [] [] (by simp)

theorem same_display_line_congr (a b b2 : DisplaySeg)
    (h1 : b2.route_name = b.route_name) (h2 : b2.short_name = b.short_name)
    (h3 : b2.start_stop = b.start_stop) :
    same_display_line a b2 = same_display_line a b := by
  unfold same_display_line
  rw [h1, h2, h3]

theorem mergeLoop_head : ∀ (rest : List DisplaySeg) (last : DisplaySeg),
    ∃ c l, mergeLoop last rest = c :: l ∧ c.route_name = last.route_name ∧
      c.short_name = last.short_name ∧ c.start_stop = last.start_stop := by
  intro rest
  induction rest with
  | nil => intro last; exact ⟨last, [], rfl, rfl, rfl, rfl⟩
  | cons seg rest ih =>
    intro last
    by_cases h : same_display_line last seg = true
    · obtain ⟨c, l, hcl, h1, h2, h3⟩ := ih (extendSeg last seg)
      refine ⟨c, l, ?_, h1, h2, h3⟩
      simp only [mergeLoop, h, if_true]
      exact hcl
    · refine ⟨last, mergeLoop seg rest, ?_, rfl, rfl, rfl⟩
      simp [mergeLoop, h]

theorem mergeLoop_chain : ∀ (rest : List DisplaySeg) (last : DisplaySeg),
    List.Chain' (fun a b => same_display_line a b = false) (mergeLoop last rest) := by
  intro rest
  induction rest with
  | nil =>
    intro last
    simp [mergeLoop]
  | cons seg rest ih =>
    intro last
    by_cases h : same_display_line last seg = true
    · simp only [mergeLoop, h, if_true]
      exact ih (extendSeg last seg)
    · have heq : mergeLoop last (seg :: rest) = last :: mergeLoop seg rest := by
        simp [mergeLoop, h]
      obtain ⟨c, l, hcl, h1, h2, h3⟩ := mergeLoop_head rest seg
      rw [heq, hcl, List.chain'_cons]
      constructor
      · rw [same_display_line_congr last seg c h1 h2 h3]
        simpa using h
      · rw [← hcl]
        exact ih seg

theorem mergeLoop_of_chain : ∀ (rest : List DisplaySeg) (last : DisplaySeg),
    List.Chain' (fun a b => same_display_line a b = false) (last :: rest) →
    mergeLoop last rest = last :: rest := by
  intro rest
  induction rest with
  | nil => intro last _; rfl
  | cons seg rest ih =>
    intro last hch
    rw [List.chain'_cons] at hch
    have hfalse : ¬ same_display_line last seg = true := by
      rw [hch.1]
      simp
    have heq : mergeLoop last (seg :: rest) = last :: mergeLoop seg rest := by
      simp [mergeLoop, hfalse]
    rw [heq, ih seg hch.2]

/-- Claim C8: the display merge is idempotent, and no adjacent pair of its
output still satisfies the same-display-line merge condition. -/
theorem merge_segments_idempotent (segs : List DisplaySeg) :
    merge_segments_for_display (merge_segments_for_display segs) =
      merge_segments_for_display segs ∧
    List.Chain' (fun a b => same_display_line a b = false)
      (merge_segments_for_display segs) := by
  cases segs with
  | nil => exact ⟨rfl, List.chain'_nil⟩
  | cons s rest =>
    have hchain := mergeLoop_chain rest s
    constructor
    · obtain ⟨c, l, hcl, _, _, _⟩ := mergeLoop_head rest s
      show merge_segments_for_display (mergeLoop s rest) = mergeLoop s rest
      rw [hcl]
      show mergeLoop c l = c :: l
      exact mergeLoop_of_chain l c (hcl ▸ hchain)
    · exact hchain

theorem compressAux_partition (canon : String → String) (n : ℕ) :
    ∀ (rest : List (String × String × String)) (cur : String) (startIdx idx : ℕ),
      startIdx < idx → idx + rest.length = n - 1 →
      ((compressAux canon n cur startIdx idx rest).head?.map
          (fun s => s.start_stop_index) = some startIdx) ∧
      ((compressAux canon n cur startIdx idx rest).getLast?.map
          (fun s => s.end_stop_index) = some (n - 1)) ∧
      List.Chain' (fun a b => a.end_stop_index = b.start_stop_index)
        (compressAux canon n cur startIdx idx rest) ∧
      ∀ s ∈ compressAux canon n cur startIdx idx rest,
        s.start_stop_index < s.end_stop_index := by
  intro rest
  induction rest with
  | nil =>
    intro cur startIdx idx h1 h2
    simp only [List.length_nil, Nat.add_zero] at h2
    subst h2
    refine ⟨by simp [compressAux], by simp [compressAux], by simp [compressAux], ?_⟩
    intro s hs
    simp [compressAux] at hs
    subst hs
    exact h1
  | cons e rest ih =>
    intro cur startIdx idx h1 h2
    simp only [List.length_cons] at h2
    have h2' : (idx + 1) + rest.length = n - 1 := by omega
    by_cases hc : canon e.2.2 ≠ canon cur
    · obtain ⟨ihh, ihl, ihc, ihm⟩ := ih e.2.2 idx (idx + 1) (by omega) h2'
      have hstep : compressAux canon n cur startIdx idx (e :: rest) =
          ⟨cur, startIdx, idx⟩ :: compressAux canon n e.2.2 idx (idx + 1) rest := by
        simp only [compressAux]
        rw [if_pos hc]
      obtain ⟨c, l, hcl⟩ : ∃ c l, compressAux canon n e.2.2 idx (idx + 1) rest = c :: l := by
        cases htl : compressAux canon n e.2.2 idx (idx + 1) rest with
        | nil => rw [htl] at ihh; simp at ihh
        | cons c l => exact ⟨c, l, rfl⟩
      have hhead : c.start_stop_index = idx := by
        rw [hcl] at ihh
        simpa using ihh
      rw [hstep]
      refine ⟨by simp, ?_, ?_, ?_⟩
      · rw [hcl, List.getLast?_cons_cons, ← hcl]
        exact ihl
      · rw [hcl, List.chain'_cons]
        exact ⟨hhead.symm, hcl ▸ ihc⟩
      · intro s hs
        rcases List.mem_cons.mp hs with rfl | hs2
        · exact h1
        · exact ihm s hs2
    · have hstep : compressAux canon n cur startIdx idx (e :: rest) =
          compressAux canon n cur startIdx (idx + 1) rest := by
        simp only [compressAux]
        rw [if_neg hc]
      rw [hstep]
      exact ih cur startIdx (idx + 1) (by omega) h2'

/-- Claim C3 fails as stated for a zero-edge path (stop list of length 1):
the compressor returns no segments, so index 0 is not covered. -/
theorem compress_zero_edge_counterexample :
    ¬ segsPartition (compress_path_by_route ["A"] [] none) 1 := by
  simp [compress_path_by_route, segsPartition]

/-- Claim C3 amended: for every path with at least one edge (n at least 2)
and a consistent edge list, the compressed segments tile the indices
0 .. n-1: the first starts at 0, the last ends at n-1, consecutive
segments share their boundary index, and every segment is strictly
increasing. -/
theorem compress_path_partition (path_stop_ids : List String)
    (edges : List (String × String × String)) (m : Option (String → Option String))
    (hlen : path_stop_ids.length = edges.length + 1) (hne : edges ≠ []) :
    segsPartition (compress_path_by_route path_stop_ids edges m)
      path_stop_ids.length := by
  cases edges with
  | nil => exact absurd rfl hne
  | cons e0 rest =>
    simp only [List.length_cons] at hlen
    have h2 : 1 + rest.length = path_stop_ids.length - 1 := by omega
    obtain ⟨a, b, c, d⟩ :=
      compressAux_partition (canonOf m) path_stop_ids.length rest e0.2.2 0 1 (by omega) h2
    exact ⟨a, b, c, d⟩

/-- Concrete instantiation of compress_path_partition. -/
theorem compress_path_partition_witness :
    segsPartition (compress_path_by_route ["A", "B"] [("A", "B", "r")] none) 2 := by
  have h := compress_path_partition ["A", "B"] [("A", "B", "r")] none (by simp) (by simp)
  simpa using h

theorem routeChanges_append (es : List (String × String × String))
    (e : String × String × String) :
    routeChanges (es ++ [e]) = routeChanges es +
      (match es.getLast? with
       | none => 0
       | some e2 => if e2.2.2 ≠ e.2.2 then 1 else 0) := by
  induction es with
  | nil => simp [routeChanges]
  | cons e1 rest ih =>
    cases rest with
    | nil => simp [routeChanges]
    | cons e2 rest2 =>
      have hl : (e1 :: e2 :: rest2) ++ [e] = e1 :: ((e2 :: rest2) ++ [e]) := rfl
      rw [hl]
      have hr : (e2 :: rest2) ++ [e] = e2 :: (rest2 ++ [e]) := rfl
      show (if e1.2.2 ≠ e2.2.2 then 1 else 0) + routeChanges ((e2 :: rest2) ++ [e]) = _
      rw [ih, List.getLast?_cons_cons]
      show _ = (if e1.2.2 ≠ e2.2.2 then 1 else 0) + routeChanges (e2 :: rest2) + _
      omega

theorem stepEdge_inv (dest : String) (maxT : ℕ) (st : BfsState) (hst : stInv maxT st)
    (acc : List BfsPath × List String × List BfsState)
    (hres : ∀ p ∈ acc.1, pathOk maxT p) (hq : ∀ q ∈ acc.2.2, stInv maxT q)
    (e : String × String) :
    (∀ p ∈ (stepEdge dest maxT st acc e).1, pathOk maxT p) ∧
    (∀ q ∈ (stepEdge dest maxT st acc e).2.2, stInv maxT q) := by
  obtain ⟨hnd, htr, hle, hlast⟩ := hst
  unfold stepEdge
  by_cases h1 : e.1 ∈ st.nodes
  · rw [if_pos h1]
    exact ⟨hres, hq⟩
  · rw [if_neg h1]
    have hNewT : st.transfers + (if (st.lastRid.isSome && st.lastRid ≠ some e.2) then 1 else 0)
        = routeChanges (st.edges ++ [(st.curr, e.1, e.2)]) := by
      rw [routeChanges_append, ← htr]
      unfold lastRidOk at hlast
      cases hgl : st.edges.getLast? with
      | none =>
        rw [hgl] at hlast
        simp [hlast]
      | some e2 =>
        rw [hgl] at hlast
        by_cases heq : e2.2.2 = e.2
        · simp [hlast, heq]
        · simp [hlast, heq]
    by_cases h2 : maxT < st.transfers +
        (if (st.lastRid.isSome && st.lastRid ≠ some e.2) then 1 else 0)
    · rw [if_pos h2]
      exact ⟨hres, hq⟩
    · rw [if_neg h2]
      have hnodup : (st.nodes ++ [e.1]).Nodup := by
        simp [List.nodup_append, hnd, h1]
      have hrc : routeChanges (st.edges ++ [(st.curr, e.1, e.2)]) ≤ maxT := by
        rw [← hNewT]
        omega
      by_cases h3 : e.1 = dest
      · rw [if_pos h3]
        by_cases h4 : pathSig (st.nodes ++ [e.1]) (st.edges ++ [(st.curr, e.1, e.2)]) ∈ acc.2.1
        · rw [if_pos h4]
          exact ⟨hres, hq⟩
        · rw [if_neg h4]
          refine ⟨?_, hq⟩
          intro p hp
          rcases List.mem_append.mp hp with hp1 | hp2
          · exact hres p hp1
          · rcases List.mem_singleton.mp hp2 with rfl
            exact ⟨hnodup, hrc⟩
      · rw [if_neg h3]
        refine ⟨hres, ?_⟩
        intro q hq2
        rcases List.mem_append.mp hq2 with hq3 | hq4
        · exact hq q hq3
        · rcases List.mem_singleton.mp hq4 with rfl
          refine ⟨hnodup, ?_, ?_, ?_⟩
          · show st.transfers + (if (st.lastRid.isSome && st.lastRid ≠ some e.2) then 1 else 0)
              = routeChanges (st.edges ++ [(st.curr, e.1, e.2)])
            exact hNewT
          · show st.transfers +
              (if (st.lastRid.isSome && st.lastRid ≠ some e.2) then 1 else 0) ≤ maxT
            omega
          · unfold lastRidOk
            simp

theorem foldEdges_inv (dest : String) (maxT : ℕ) (st : BfsState) (hst : stInv maxT st) :
    ∀ (es : List (String × String)) (acc : List BfsPath × List String × List BfsState),
      (∀ p ∈ acc.1, pathOk maxT p) → (∀ q ∈ acc.2.2, stInv maxT q) →
      (∀ p ∈ (es.foldl (stepEdge dest maxT st) acc).1, pathOk maxT p) ∧
      (∀ q ∈ (es.foldl (stepEdge dest maxT st) acc).2.2, stInv maxT q) := by
  intro es
  induction es with
  | nil => intro acc h1 h2; exact ⟨h1, h2⟩
  | cons e rest ih =>
    intro acc h1 h2
    obtain ⟨h1s, h2s⟩ := stepEdge_inv dest maxT st hst acc h1 h2 e
    exact ih (stepEdge dest maxT st acc e) h1s h2s

theorem bfsLoop_inv (adj : String → List (String × String)) (dest : String)
    (k maxDepth maxT : ℕ) :
    ∀ (fuel : ℕ) (queue : List BfsState) (results : List BfsPath) (seen : List String),
      (∀ q ∈ queue, stInv maxT q) → (∀ p ∈ results, pathOk maxT p) →
      ∀ p ∈ bfsLoop adj dest k maxDepth maxT fuel queue results seen, pathOk maxT p := by
  intro fuel
  induction fuel with
  | zero =>
    intro queue results seen _ hr p hp
    exact hr p hp
  | succ fuel ih =>
    intro queue results seen hq hr p hp
    simp only [bfsLoop] at hp
    by_cases hk : results.length < k
    · rw [if_pos hk] at hp
      cases queue with
      | nil => exact hr p hp
      | cons st rest =>
        dsimp only at hp
        have hstI := hq st (List.mem_cons_self st rest)
        have hrest : ∀ q ∈ rest, stInv maxT q :=
          fun q hq2 => hq q (List.mem_cons_of_mem st hq2)
        by_cases hd : maxDepth + 1 < st.nodes.length
        · rw [if_pos hd] at hp
          exact ih rest results seen hrest hr p hp
        · rw [if_neg hd] at hp
          obtain ⟨hres, hqs⟩ := foldEdges_inv dest maxT st hstI (adj st.curr)
            (results, seen, []) hr (by intro q hq2; cases hq2)
          refine ih _ _ _ ?_ hres p hp
          intro q hq2
          rcases List.mem_append.mp hq2 with hq3 | hq4
          · exact hrest q hq3
          · exact hqs q hq4
    · rw [if_neg hk] at hp
      exact hr p hp

theorem bfs_entry_ok (adj : String → List (String × String)) (origin dest : String)
    (k maxDepth maxT fuel : ℕ) :
    ∀ p ∈ bfsLoop adj dest k maxDepth maxT fuel
        [⟨origin, [origin], [], none, 0⟩] [] [],
      pathOk maxT p := by
  apply bfsLoop_inv
  · intro q hq
    rcases List.mem_singleton.mp hq with rfl
    exact ⟨List.nodup_singleton origin, rfl, Nat.zero_le maxT, rfl⟩
  · intro p hp
    cases hp

/-- Claim C1: every path returned by the bounded multi-path search (either
variant) has no repeated stop id and at most maxTransfers route-id
changes. -/
theorem find_k_paths_simple_and_transfer_bounded :
    (∀ (graph : String → List Edge) (origin dest : String)
        (k maxDepth maxTransfers fuel : ℕ),
      ∀ p ∈ find_k_paths graph origin dest k maxDepth maxTransfers fuel,
        p.1.Nodup ∧ routeChanges p.2 ≤ maxTransfers) ∧
    (∀ (graph : String → List HarvardEdge) (origin dest : String)
        (k maxDepth maxTransfers fuel : ℕ),
      ∀ p ∈ find_k_paths_harvard graph origin dest k maxDepth maxTransfers fuel,
        p.1.Nodup ∧ routeChanges p.2 ≤ maxTransfers) := by
  constructor
  · intro graph origin dest k maxDepth maxTransfers fuel p hp
    unfold find_k_paths at hp
    by_cases h : origin = dest
    · rw [if_pos h] at hp
      rcases List.mem_singleton.mp hp with rfl
      exact ⟨List.nodup_singleton origin, Nat.zero_le maxTransfers⟩
    · rw [if_neg h] at hp
      exact bfs_entry_ok _ origin dest k maxDepth maxTransfers fuel p hp
  · intro graph origin dest k maxDepth maxTransfers fuel p hp
    unfold find_k_paths_harvard at hp
    by_cases h : origin = dest
    · rw [if_pos h] at hp
      rcases List.mem_singleton.mp hp with rfl
      exact ⟨List.nodup_singleton origin, Nat.zero_le maxTransfers⟩
    · rw [if_neg h] at hp
      exact bfs_entry_ok _ origin dest k maxDepth maxTransfers fuel p hp

/-- Concrete instantiation of find_k_paths_simple_and_transfer_bounded. -/
theorem find_k_paths_simple_and_transfer_bounded_witness :
    (["A"], ([] : List (String × String × String))).1.Nodup ∧
      routeChanges (["A"], ([] : List (String × String × String))).2 ≤ 1 :=
  find_k_paths_simple_and_transfer_bounded.1 (fun _ => []) "A" "A" 1 20 1 1
    (["A"], []) (by simp [find_k_paths])

theorem nameMatch_empty (g : String) : nameMatch "" g = true := by
  unfold nameMatch
  have h : ("" : String).toList <:+: g.toList := ⟨[], g.toList, by simp⟩
  simp [h]

theorem mapStep_inv (hdist : ℚ → ℚ → ℚ → ℚ → ℚ) (pLat pLon : ℚ) (pLower : String)
    (l : List (String × GtfsStop)) (st : Option (String × ℚ × Bool))
    (c : String × GtfsStop)
    (hinv : mapInv hdist pLat pLon pLower l st) :
    mapInv hdist pLat pLon pLower (l ++ [c]) (mapStep hdist pLat pLon pLower st c) := by
  have hcmem : c ∈ l ++ [c] := List.mem_append_right l (List.mem_singleton.mpr rfl)
  by_cases hd : MAX_MATCH_DISTANCE_M < candDist hdist pLat pLon c
  · have hstep : mapStep hdist pLat pLon pLower st c = st := by
      simp only [mapStep]
      rw [if_pos hd]
    rw [hstep]
    have hcr : ¬ inRadius hdist pLat pLon c := fun hcon => absurd hd (not_lt.mpr hcon)
    cases st with
    | none =>
      simp only [mapInv] at hinv ⊢
      intro c2 hc2
      rcases List.mem_append.mp hc2 with h | h
      · exact hinv c2 h
      · obtain rfl := List.mem_singleton.mp h
        exact hcr
    | some b =>
      obtain ⟨⟨cw, hcwm, hcw⟩, hiff, hmin⟩ := hinv
      refine ⟨⟨cw, List.mem_append_left _ hcwm, hcw⟩, ?_, ?_⟩
      · rw [hiff]
        constructor
        · rintro ⟨c2, hc2, hc2r, hc2n⟩
          exact ⟨c2, List.mem_append_left _ hc2, hc2r, hc2n⟩
        · rintro ⟨c2, hc2, hc2r, hc2n⟩
          rcases List.mem_append.mp hc2 with h | h
          · exact ⟨c2, h, hc2r, hc2n⟩
          · obtain rfl := List.mem_singleton.mp h
            exact absurd hc2r hcr
      · intro c2 hc2 hc2r hc2n
        rcases List.mem_append.mp hc2 with h | h
        · exact hmin c2 h hc2r hc2n
        · obtain rfl := List.mem_singleton.mp h
          exact absurd hc2r hcr
  · have hcr : inRadius hdist pLat pLon c := not_lt.mp hd
    cases st with
    | none =>
      have hstep : mapStep hdist pLat pLon pLower none c =
          some (c.1, candDist hdist pLat pLon c, candNM pLower c) := by
        simp only [mapStep]
        rw [if_neg hd]
      rw [hstep]
      simp only [mapInv] at hinv ⊢
      refine ⟨⟨c, hcmem, rfl, rfl, rfl, hcr⟩, ?_, ?_⟩
      · constructor
        · intro hnm
          exact ⟨c, hcmem, hcr, hnm⟩
        · rintro ⟨c2, hc2, hc2r, hc2n⟩
          rcases List.mem_append.mp hc2 with h | h
          · exact absurd hc2r (hinv c2 h)
          · obtain rfl := List.mem_singleton.mp h
            exact hc2n
      · intro c2 hc2 hc2r hc2n
        rcases List.mem_append.mp hc2 with h | h
        · exact absurd hc2r (hinv c2 h)
        · obtain rfl := List.mem_singleton.mp h
          exact le_refl _
    | some b =>
      obtain ⟨bid, bd, bnm⟩ := b
      obtain ⟨⟨cw, hcwm, hcw1, hcw2, hcw3, hcwr⟩, hiff, hmin⟩ := hinv
      by_cases hA : (candNM pLower c && !bnm) = true
      · have hnm : candNM pLower c = true := ((Bool.and_eq_true _ _).mp hA).1
        have hbnm : bnm = false := by
          have h2 := ((Bool.and_eq_true _ _).mp hA).2
          simpa using h2
        have hstep : mapStep hdist pLat pLon pLower (some (bid, bd, bnm)) c =
            some (c.1, candDist hdist pLat pLon c, true) := by
          simp only [mapStep]
          rw [if_neg hd]
          rw [if_pos hA]
        rw [hstep]
        refine ⟨⟨c, hcmem, rfl, rfl, hnm, hcr⟩, ?_, ?_⟩
        · exact ⟨fun _ => ⟨c, hcmem, hcr, hnm⟩, fun _ => rfl⟩
        · intro c2 hc2 hc2r hc2n
          rcases List.mem_append.mp hc2 with h | h
          · exfalso
            rw [hbnm] at hiff
            have hex : ∃ c3 ∈ l, inRadius hdist pLat pLon c3 ∧ candNM pLower c3 = true :=
              ⟨c2, h, hc2r, hc2n⟩
            exact absurd (hiff.mpr hex) (by simp)
          · obtain rfl := List.mem_singleton.mp h
            exact le_refl _
      · by_cases hB : (candNM pLower c == bnm && decide
            (candDist hdist pLat pLon c < bd)) = true
        · have heq : candNM pLower c = bnm := by
            have h2 := ((Bool.and_eq_true _ _).mp hB).1
            exact beq_iff_eq.mp h2
          have hlt : candDist hdist pLat pLon c < bd := by
            have h2 := ((Bool.and_eq_true _ _).mp hB).2
            exact of_decide_eq_true h2
          have hstep : mapStep hdist pLat pLon pLower (some (bid, bd, bnm)) c =
              some (c.1, candDist hdist pLat pLon c, candNM pLower c) := by
            simp only [mapStep]
            rw [if_neg hd]
            rw [if_neg hA, if_pos hB]
          rw [hstep]
          refine ⟨⟨c, hcmem, rfl, rfl, rfl, hcr⟩, ?_, ?_⟩
          · constructor
            · intro hnm
              exact ⟨c, hcmem, hcr, hnm⟩
            · rintro ⟨c2, hc2, hc2r, hc2n⟩
              rcases List.mem_append.mp hc2 with h | h
              · rw [heq]
                exact hiff.mpr ⟨c2, h, hc2r, hc2n⟩
              · obtain rfl := List.mem_singleton.mp h
                exact hc2n
          · intro c2 hc2 hc2r hc2n
            rcases List.mem_append.mp hc2 with h | h
            · have hmin2 := hmin c2 h hc2r (hc2n.trans heq)
              exact le_of_lt (lt_of_lt_of_le hlt hmin2)
            · obtain rfl := List.mem_singleton.mp h
              exact le_refl _
        · have hstep : mapStep hdist pLat pLon pLower (some (bid, bd, bnm)) c =
              some (bid, bd, bnm) := by
            simp only [mapStep]
            rw [if_neg hd]
            rw [if_neg hA, if_neg hB]
          rw [hstep]
          refine ⟨⟨cw, List.mem_append_left _ hcwm, hcw1, hcw2, hcw3, hcwr⟩, ?_, ?_⟩
          · constructor
            · intro hb
              obtain ⟨c2, hc2, hc2r, hc2n⟩ := hiff.mp hb
              exact ⟨c2, List.mem_append_left _ hc2, hc2r, hc2n⟩
            · rintro ⟨c2, hc2, hc2r, hc2n⟩
              rcases List.mem_append.mp hc2 with h | h
              · exact hiff.mpr ⟨c2, h, hc2r, hc2n⟩
              · obtain rfl := List.mem_singleton.mp h
                by_contra hbf
                have hbnm : bnm = false := by
                  cases hcase : bnm with
                  | true => exact absurd hcase hbf
                  | false => rfl
                apply hA
                rw [hc2n, hbnm]
                rfl
          · intro c2 hc2 hc2r hc2n
            rcases List.mem_append.mp hc2 with h | h
            · exact hmin c2 h hc2r hc2n
            · obtain rfl := List.mem_singleton.mp h
              have hbeq : (candNM pLower c2 == bnm) = true := beq_iff_eq.mpr hc2n
              have hnlt : ¬ candDist hdist pLat pLon c2 < bd := by
                intro hlt
                apply hB
                rw [hbeq, decide_eq_true hlt]
                rfl
              exact not_lt.mp hnlt

theorem mapFold_inv (hdist : ℚ → ℚ → ℚ → ℚ → ℚ) (pLat pLon : ℚ) (pLower : String) :
    ∀ (rest l : List (String × GtfsStop)) (st : Option (String × ℚ × Bool)),
      mapInv hdist pLat pLon pLower l st →
      mapInv hdist pLat pLon pLower (l ++ rest)
        (rest.foldl (mapStep hdist pLat pLon pLower) st) := by
  intro rest
  induction rest with
  | nil =>
    intro l st h
    simpa using h
  | cons c rest ih =>
    intro l st h
    have h2 := mapStep_inv hdist pLat pLon pLower l st c h
    have h3 := ih (l ++ [c]) _ h2
    simpa using h3

theorem map_passiogo_inv (hdist : ℚ → ℚ → ℚ → ℚ → ℚ) (pLat pLon : ℚ) (pLower : String)
    (stops : List (String × GtfsStop)) :
    mapInv hdist pLat pLon pLower stops
      (stops.foldl (mapStep hdist pLat pLon pLower) none) := by
  have h := mapFold_inv hdist pLat pLon pLower stops [] none (by simp [mapInv])
  simpa using h

/-- Claim C6: the stop reconciler considers only candidates within the 100 m
radius (no candidate within gives no match), prefers a name-matching
candidate over any non-matching one, and breaks remaining ties by
shortest distance. -/
theorem reconciler_radius_name_distance (hdist : ℚ → ℚ → ℚ → ℚ → ℚ)
    (stops : List (String × GtfsStop)) (p : PStop) (pLat pLon : ℚ)
    (hlat : p.latitude = some pLat) (hlon : p.longitude = some pLon) :
    (map_passiogo_stop_to_gtfs_id hdist stops p = none ↔
      ∀ c ∈ stops, ¬ inRadius hdist pLat pLon c) ∧
    (∀ bid, map_passiogo_stop_to_gtfs_id hdist stops p = some bid →
      ∃ c ∈ stops, c.1 = bid ∧ inRadius hdist pLat pLon c ∧
        (candNM (strTrim (strLower (p.name.getD ""))) c = true ∨
          ∀ c2 ∈ stops, inRadius hdist pLat pLon c2 →
            candNM (strTrim (strLower (p.name.getD ""))) c2 = false) ∧
        ∀ c2 ∈ stops, inRadius hdist pLat pLon c2 →
          candNM (strTrim (strLower (p.name.getD ""))) c2 =
            candNM (strTrim (strLower (p.name.getD ""))) c →
          candDist hdist pLat pLon c ≤ candDist hdist pLat pLon c2) := by
  have hres : map_passiogo_stop_to_gtfs_id hdist stops p =
      (stops.foldl (mapStep hdist pLat pLon (strTrim (strLower (p.name.getD "")))) none).map
        (fun b => b.1) := by
    unfold map_passiogo_stop_to_gtfs_id
    rw [hlat, hlon]
  have hI := map_passiogo_inv hdist pLat pLon (strTrim (strLower (p.name.getD ""))) stops
  constructor
  · rw [hres]
    cases hF : stops.foldl (mapStep hdist pLat pLon (strTrim (strLower (p.name.getD "")))) none with
    | none =>
      rw [hF] at hI
      simp only [mapInv] at hI
      simpa using hI
    | some b =>
      rw [hF] at hI
      obtain ⟨⟨cw, hcwm, _, _, _, hcwr⟩, _, _⟩ := hI
      constructor
      · intro h
        exact Option.noConfusion h
      · intro hall
        exact absurd hcwr (hall cw hcwm)
  · intro bid hb
    rw [hres] at hb
    cases hF : stops.foldl (mapStep hdist pLat pLon (strTrim (strLower (p.name.getD "")))) none with
    | none =>
      rw [hF] at hb
      exact Option.noConfusion hb
    | some b =>
      rw [hF] at hb
      obtain ⟨bid2, bd, bnm⟩ := b
      have hbid : bid2 = bid := Option.some.inj (show some bid2 = some bid from hb)
      rw [hF] at hI
      obtain ⟨⟨cw, hcwm, hcw1, hcw2, hcw3, hcwr⟩, hiff, hmin⟩ := hI
      refine ⟨cw, hcwm, hcw1.trans hbid, hcwr, ?_, ?_⟩
      · cases hbnm : bnm with
        | true => exact Or.inl (hcw3.trans hbnm)
        | false =>
          refine Or.inr ?_
          intro c2 hc2 hc2r
          cases hcand : candNM (strTrim (strLower (p.name.getD ""))) c2 with
          | false => rfl
          | true =>
            have hbt := hiff.mpr ⟨c2, hc2, hc2r, hcand⟩
            rw [hbnm] at hbt
            exact absurd hbt (by simp)
      · intro c2 hc2 hc2r hc2n
        have hmin2 := hmin c2 hc2 hc2r (hc2n.trans hcw3)
        rw [hcw2]
        exact hmin2

/-- Concrete instantiation of reconciler_radius_name_distance. -/
theorem reconciler_radius_name_distance_witness :
    map_passiogo_stop_to_gtfs_id (fun _ _ _ _ => 0) [] ⟨some 0, some 0, some ""⟩ = none ↔
      ∀ c ∈ ([] : List (String × GtfsStop)), ¬ inRadius (fun _ _ _ _ => 0) 0 0 c :=
  (reconciler_radius_name_distance (fun _ _ _ _ => 0) [] ⟨some 0, some 0, some ""⟩ 0 0
    rfl rfl).1

/-- Claim C10: with a missing or empty query name, every string counts as a
name match (the empty string is an infix of every name), so every
in-radius candidate is a name match and the reconciler returns the
nearest in-radius candidate. -/
theorem reconciler_empty_name_nearest (hdist : ℚ → ℚ → ℚ → ℚ → ℚ)
    (stops : List (String × GtfsStop)) (p : PStop) (pLat pLon : ℚ)
    (hlat : p.latitude = some pLat) (hlon : p.longitude = some pLon)
    (hname : p.name = none ∨ p.name = some "") :
    (∀ g : String, nameMatch "" g = true) ∧
    (∀ bid, map_passiogo_stop_to_gtfs_id hdist stops p = some bid →
      ∃ c ∈ stops, c.1 = bid ∧ inRadius hdist pLat pLon c ∧
        ∀ c2 ∈ stops, inRadius hdist pLat pLon c2 →
          candDist hdist pLat pLon c ≤ candDist hdist pLat pLon c2) := by
  have hpl : strTrim (strLower (p.name.getD "")) = "" := by
    rcases hname with h | h <;> rw [h] <;> rfl
  refine ⟨nameMatch_empty, ?_⟩
  have hres : map_passiogo_stop_to_gtfs_id hdist stops p =
      (stops.foldl (mapStep hdist pLat pLon "") none).map (fun b => b.1) := by
    unfold map_passiogo_stop_to_gtfs_id
    rw [hlat, hlon]
    rw [hpl]
  have hI := map_passiogo_inv hdist pLat pLon "" stops
  have hcnm : ∀ c2 : String × GtfsStop, candNM "" c2 = true :=
    fun c2 => nameMatch_empty _
  intro bid hb
  rw [hres] at hb
  cases hF : stops.foldl (mapStep hdist pLat pLon "") none with
  | none =>
    rw [hF] at hb
    exact Option.noConfusion hb
  | some b =>
    rw [hF] at hb
    obtain ⟨bid2, bd, bnm⟩ := b
    have hbid : bid2 = bid := Option.some.inj (show some bid2 = some bid from hb)
    rw [hF] at hI
    obtain ⟨⟨cw, hcwm, hcw1, hcw2, hcw3, hcwr⟩, hiff, hmin⟩ := hI
    refine ⟨cw, hcwm, hcw1.trans hbid, hcwr, ?_⟩
    intro c2 hc2 hc2r
    have hmin2 := hmin c2 hc2 hc2r ((hcnm c2).trans ((hcnm cw).symm.trans hcw3))
    rw [hcw2]
    exact hmin2

/-- Concrete instantiation of reconciler_empty_name_nearest. -/
theorem reconciler_empty_name_nearest_witness : nameMatch "" "abc" = true :=
  (reconciler_empty_name_nearest (fun _ _ _ _ => 0) [] ⟨some 0, some 0, some ""⟩ 0 0
    rfl rfl (Or.inr rfl)).1 "abc"

end Shuttl
